import Mathlib

/-!
Shallow embedding of the bitcoin-blockchain-parser repository
(`blockchain_parser/blockchain.py`, `blockchain_parser/scanner.py`,
`blockchain_parser/utils.py`) and proofs about the frozen claims.

Python byte strings are modelled as `List Nat` (one entry per byte),
Python integers as `Nat`/`Int`, raised exceptions as `Except PyErr`.
Block hashes (the hex strings produced by `format_hash`) are modelled as
abstract `Nat` identifiers; what matters to the code under verification is
only equality between hashes.
-/

deriving instance DecidableEq for Except

namespace BlockchainParser

/-- The kinds of Python exceptions raised by the modelled code paths. -/
inductive PyErr where
  | attributeError
  | nameError
  | valueError
  | indexError
  | typeError
  | eofError
  deriving DecidableEq, Repr

/-- One decoded row of the block-index LevelDB, as produced by
`DBBlockIndex(format_hash(k[1:]), v)` (`index.py` is not among the sources;
the fields below are the ones `blockchain.py` reads: the block hash taken from
the store key, the height, and the on-disk location with `-1` sentinels). -/
structure DBBlockIndex where
  hash : Nat
  height : Int
  file : Int
  data_pos : Int
  deriving DecidableEq, Repr

/-- Modelled from the spec: the decoded content of one raw block record that
`blockchain.py` consumes (`block.py` is not among the sources).  `hash` is the
block identity hash `Block.hash`, `prev` is `Block.header.previous_block_hash`. -/
structure BlockData where
  hash : Nat
  prev : Nat
  deriving DecidableEq, Repr

/-- A `Block(raw, height, parent)` value as constructed by the height-indexed
read paths of `blockchain.py`: decoded content plus the height passed by the
caller. -/
structure Block where
  data : BlockData
  height : Int
  deriving DecidableEq, Repr

/-- The blockchain façade state the read operations consult: the in-memory
block index list `self.blockIndexes`, and the on-disk block data.  `disk f p`
abstracts `Block(get_block(os.path.join(self.path, "blk%05d.dat" % f), p))`:
the decoded block stored in file number `f` at intra-file offset `p`. -/
structure BlockchainState where
  blockIndexes : List DBBlockIndex
  disk : Int → Int → BlockData

/- ----------------------------------------------------------------------
`utils.decode_varint` (utils.py lines 42-58)
---------------------------------------------------------------------- -/

/-- The loop of `decode_varint`: read one byte, OR its low 7 bits into the
result at the current shift, advance shift by 7, stop when the byte's high
bit (0x80) is clear; raise `EOFError` when the stream is exhausted. -/
def decodeVarintGo : List Nat → Nat → Nat → Nat → Except PyErr (Nat × Nat)
  | [], _, _, _ => .error .eofError
  | i :: rest, length, shift, result =>
    let length := length + 1
    let result := result ||| ((i &&& 0x7f) <<< shift)
    if i &&& 0x80 = 0 then .ok (result, length)
    else decodeVarintGo rest length (shift + 7) result

/-- The decoder `utils.decode_varint`: returns the decoded value together with the number
of bytes consumed. -/
def decode_varint (varint : List Nat) : Except PyErr (Nat × Nat) :=
  decodeVarintGo varint 0 0 0

/-- Fuel-indexed loop of the varint encoder; the value strictly shrinks by a
factor of 128 per step, so `fuel = n + 1` never runs out. -/
def encodeVarintGo : Nat → Nat → List Nat
  | 0, _ => []
  | fuel + 1, n =>
    if n < 128 then [n]
    else (n % 128 + 128) :: encodeVarintGo fuel (n / 128)

/-- Modelled from the spec: the base-128 varint encoding (7 bits per byte,
low-order group first, high bit set on every byte except the last); the
encoder itself is not part of the sources, only the decoder is. -/
def encodeVarint (n : Nat) : List Nat :=
  encodeVarintGo (n + 1) n

/-- Fuel-indexed bit-length loop; `fuel = n + 1` never runs out. -/
def bitsGo : Nat → Nat → Nat
  | 0, _ => 0
  | fuel + 1, n => if n = 0 then 0 else bitsGo fuel (n / 2) + 1

/-- Bit length of a natural number (`bits 0 = 0`, `bits n = bits (n / 2) + 1`
for `n > 0`): the `bits(V)` of the claim about varint round-trips. -/
def bits (n : Nat) : Nat :=
  bitsGo (n + 1) n

example : decode_varint [0x85, 0x01] = .ok (133, 2) := by decide
example : encodeVarint 133 = [0x85, 0x01] := by decide
example : bits 128 = 8 := by decide

/- ----------------------------------------------------------------------
`blockchain.get_blocks` (blockchain.py lines 42-66): linear magic scan
---------------------------------------------------------------------- -/

/-- The constant `BITCOIN_CONSTANT` (blockchain.py line 26): the bytes f9 be b4 d9. -/
def BITCOIN_CONSTANT : List Nat := [0xf9, 0xbe, 0xb4, 0xd9]

/-- Little-endian value of a byte list (on a 4-byte slice this is exactly
`struct.unpack("<I", ...)`). -/
def unle32 (bs : List Nat) : Nat :=
  bs.foldr (fun b acc => b + 256 * acc) 0

/-- The 4-byte little-endian encoding of `n < 2^32`, as written by the node in
front of each block record (`struct.pack("<I", n)`). -/
def le32 (n : Nat) : List Nat :=
  [n % 256, n / 256 % 256, n / 65536 % 256, n / 16777216 % 256]

/-- The `while offset < (length - 4)` loop of `get_blocks`, one fuel unit per
iteration.  Every iteration strictly increases `offset`, and the loop only
continues while `offset < length`, so `data.length + 1` units of fuel (as
supplied by `get_blocks`) can never run out; the `fuel = 0` branch is
unreachable from `get_blocks`.  Python slices clamp at the end of the byte
range, which `List.take` mirrors. -/
def getBlocksGo (data : List Nat) : Nat → Nat → List (List Nat)
  | 0, _ => []
  | fuel + 1, offset =>
    if (offset : Int) < (data.length : Int) - 4 then
      if (data.drop offset).take 4 = BITCOIN_CONSTANT then
        let size := unle32 ((data.drop (offset + 4)).take 4)
        (data.drop (offset + 8)).take size :: getBlocksGo data fuel (offset + 8 + size)
      else
        getBlocksGo data fuel (offset + 1)
    else []

/-- The generator `blockchain.get_blocks`: yields the raw block records found in a block
file by scanning for the magic marker from offset 0. -/
def get_blocks (data : List Nat) : List (List Nat) :=
  getBlocksGo data (data.length + 1) 0

/-- A well-formed on-disk record: magic marker, correct 4-byte little-endian
length, then the payload (spec: block-data file format). -/
def encodeRecord (p : List Nat) : List Nat :=
  BITCOIN_CONSTANT ++ le32 p.length ++ p

/-- A block file made of well-formed records, back to back. -/
def encodeFile (ps : List (List Nat)) : List Nat :=
  (ps.map encodeRecord).flatten

/-- The function `blockchain.get_block` (lines 69-74): direct-offset fetch; the 4-byte
little-endian size sits 4 bytes before `offset`, the record follows at
`offset`. -/
def get_block (fileBytes : List Nat) (offset : Nat) : List Nat :=
  let size := unle32 ((fileBytes.drop (offset - 4)).take 4)
  (fileBytes.drop offset).take size

/- ----------------------------------------------------------------------
Python list access helpers
---------------------------------------------------------------------- -/

/-- Python `l[i]` for an integer index: negative indices count from the end,
out-of-range access raises `IndexError`. -/
def pyListGet {α : Type} (l : List α) (i : Int) : Except PyErr α :=
  let j := if i < 0 then i + l.length else i
  if h : 0 ≤ j ∧ j.toNat < l.length then .ok (l.get ⟨j.toNat, h.2⟩)
  else .error .indexError

/-- Clamp one slice bound the way Python `l[a:b]` does. -/
def pySliceIdx (len : Nat) (i : Int) : Nat :=
  if i < 0 then (if i + len < 0 then 0 else (i + len).toNat)
  else min i.toNat len

/-- Python `l[a:b]` (step 1). -/
def pySlice {α : Type} (l : List α) (a b : Int) : List α :=
  let s := pySliceIdx l.length a
  let e := pySliceIdx l.length b
  (l.drop s).take (e - s)

/- ----------------------------------------------------------------------
Façade read operations (blockchain.py lines 212-241)
---------------------------------------------------------------------- -/

/-- The value `Block(get_block(blkFile, blk.data_pos), blk.height, self)` as built by
the height-indexed read paths. -/
def mkOrderedBlock (disk : Int → Int → BlockData) (blk : DBBlockIndex) : Block :=
  ⟨disk blk.file blk.data_pos, blk.height⟩

/-- Holds (as `true`) when the index entry has an on-disk location (file and offset both
different from the `-1` sentinel). -/
def materialized (blk : DBBlockIndex) : Bool :=
  !(decide (blk.file = -1 ∨ blk.data_pos = -1))

/-- The `for blkIdx in blockIndexes[start:end]` loop body of
`get_ordered_blocks`: yield decoded blocks, `break` at the first entry with a
`-1` sentinel. -/
def yieldUntilSentinel (disk : Int → Int → BlockData) : List DBBlockIndex → List Block
  | [] => []
  | blk :: rest =>
    if blk.file = -1 ∨ blk.data_pos = -1 then []
    else mkOrderedBlock disk blk :: yieldUntilSentinel disk rest

/-- The generator `Blockchain.get_ordered_blocks(start, end)` (lines 221-241): `end`
defaults to the index length; when `end < start` the slice is taken from the
reversed index with bounds re-expressed as `len - start` and `len - end`. -/
def get_ordered_blocks (c : BlockchainState) (start : Int) (endOpt : Option Int) : List Block :=
  let blockIndexes := c.blockIndexes
  let endv := endOpt.getD (blockIndexes.length : Int)
  if endv < start then
    let rev := blockIndexes.reverse
    yieldUntilSentinel c.disk
      (pySlice rev ((blockIndexes.length : Int) - start) ((blockIndexes.length : Int) - endv))
  else
    yieldUntilSentinel c.disk (pySlice blockIndexes start endv)

/-- The method `Blockchain.get_block_by_height(height)` (lines 212-219): positional
access `self.blockIndexes[height]`, then `ValueError("Block not on disk")`
when the entry carries a `-1` sentinel (the NotFound condition of the spec,
surfaced as an invalid-state error). -/
def get_block_by_height (c : BlockchainState) (height : Int) : Except PyErr Block :=
  match pyListGet c.blockIndexes height with
  | .error e => .error e
  | .ok blk =>
    if blk.file = -1 ∨ blk.data_pos = -1 then .error .valueError
    else .ok (mkOrderedBlock c.disk blk)

/- ----------------------------------------------------------------------
Orphan pruning (blockchain.py lines 98-140 and 184-210)
---------------------------------------------------------------------- -/

/-- One pass of the inner `for chain in chains` loop of `_index_confirmed`
for the block with hash `h` and previous-block hash `pv`: each chain whose
last element equals `pv` is extended with `h`; as soon as some chain (after
its possible extension) has length `numConf`, the loop returns with the
decision `firstHash in chain`.  `Sum.inl` carries the updated chain list,
`Sum.inr` the early-returned decision. -/
def scanChains (firstHash h pv : Nat) (numConf : Nat) :
    List (List Nat) → (List (List Nat)) ⊕ Bool
  | [] => .inl []
  | chain :: rest =>
    let chain' := if chain.getLast? = some pv then chain ++ [h] else chain
    if chain'.length = numConf then .inr (chain'.contains firstHash)
    else
      match scanChains firstHash h pv numConf rest with
      | .inl rest' => .inl (chain' :: rest')
      | .inr d => .inr d

/-- The `for i, index in enumerate(chain_indexes)` loop of
`_index_confirmed`: entries with a `-1` sentinel return `False` immediately;
otherwise the block is decoded from disk, `first_block` is fixed at the first
iteration, a fresh singleton chain is appended, and the chains are scanned.
`none` models Python falling off the loop and returning `None`. -/
def indexConfirmedAux (disk : Int → Int → BlockData) (numConf : Nat) :
    List DBBlockIndex → Option Nat → List (List Nat) → Option Bool
  | [], _, _ => none
  | idx :: rest, firstHash?, chains =>
    if idx.file = -1 ∨ idx.data_pos = -1 then some false
    else
      let blockData := disk idx.file idx.data_pos
      let firstHash := firstHash?.getD blockData.hash
      match scanChains firstHash blockData.hash blockData.prev numConf (chains ++ [[blockData.hash]]) with
      | .inl chains' => indexConfirmedAux disk numConf rest (some firstHash) chains'
      | .inr decision => some decision

/-- The method `Blockchain._index_confirmed(chain_indexes)` with the default
`num_confirmations=6`. -/
def indexConfirmed (disk : Int → Int → BlockData) (chainIndexes : List DBBlockIndex) :
    Option Bool :=
  indexConfirmedAux disk 6 chainIndexes none []

/-- The `for i, blockIdx in enumerate(blockIndexes)` orphan-collection loop
of `_build_block_index` (lines 184-205).  `prev?` carries the previous entry
(so `last_height` and `blockIndexes[i - 1]`), and the suffix starting at the
current entry is exactly `blockIndexes[i:]`.  Python truthiness of the
`_index_confirmed` result makes `some true` the only confirming value. -/
def collectOrphansGo (disk : Int → Int → BlockData) :
    List DBBlockIndex → Option DBBlockIndex → List Nat → List Nat
  | [], _, orphans => orphans
  | blockIdx :: rest, prev?, orphans =>
    let last_height : Int := match prev? with | none => -1 | some p => p.height
    let orphans' :=
      if last_height > -1 ∧ blockIdx.height = last_height then
        if indexConfirmed disk (blockIdx :: rest) = some true then
          orphans ++ [(prev?.map DBBlockIndex.hash).getD 0]
        else
          orphans ++ [blockIdx.hash]
      else orphans
    collectOrphansGo disk rest (some blockIdx) orphans'

/-- The orphan hashes collected over a height-sorted index sequence. -/
def collectOrphans (disk : Int → Int → BlockData) (blockIndexes : List DBBlockIndex) :
    List Nat :=
  collectOrphansGo disk blockIndexes none []

/-- The pruning tail of `_build_block_index` (lines 184-210): collect orphan
hashes, then `filter(lambda block: block.hash not in orphans, blockIndexes)`. -/
def pruneOrphans (disk : Int → Int → BlockData) (blockIndexes : List DBBlockIndex) :
    List DBBlockIndex :=
  let orphans := collectOrphans disk blockIndexes
  blockIndexes.filter (fun block => !(orphans.contains block.hash))

/- ----------------------------------------------------------------------
`Blockchain.__init__` / `_build_block_index` (blockchain.py 82-88, 157-174)
---------------------------------------------------------------------- -/

/-- The binding structure of `_build_block_index` (lines 157-174), run with a
flag saying whether the attribute `self.blockIndexDb` has been assigned yet.
The cache branch binds the *local* variable `blockIndexes` (line 163); the
store scan on lines 166-167 assigns the *attribute* `self.blockIndexes` after
reading `self.blockIndexDb` (an `AttributeError` when the attribute does not
exist yet); line 168 then calls `db.close()` although no name `db` is defined
anywhere in the module, a `NameError`.  Everything from line 169 on (the sort,
the cache write and the pruning) is unreachable dead code, and so is the
`UnboundLocalError` that `blockIndexes.sort` would raise when no cache was
loaded. -/
def buildBlockIndexRun (cacheConfigured cacheExists : Bool)
    (cacheContent : List DBBlockIndex) (selfHasBlockIndexDb : Bool)
    (storeEntries : List DBBlockIndex) : Except PyErr (List DBBlockIndex) :=
  let _localBlockIndexes : Option (List DBBlockIndex) :=
    if cacheConfigured && cacheExists then some cacheContent else none
  if !selfHasBlockIndexDb then .error .attributeError
  else
    let _selfBlockIndexes := storeEntries
    .error .nameError

/-- The constructor `Blockchain.__init__` (lines 82-88) calls `self._build_block_index()` on
line 86, *before* line 87 assigns `self.blockIndexDb`; the store handle
attribute therefore never exists when the index is built.  `storeEntries`
stands for the entries that the line-166 comprehension would decode from the
records whose key starts with the tag byte `'b'`. -/
def blockchainInit (cacheConfigured cacheExists : Bool)
    (cacheContent : List DBBlockIndex) (storeEntries : List DBBlockIndex) :
    Except PyErr (List DBBlockIndex) :=
  buildBlockIndexRun cacheConfigured cacheExists cacheContent false storeEntries

/- ----------------------------------------------------------------------
`Blockchain.get_transaction` (blockchain.py lines 142-154)
---------------------------------------------------------------------- -/

/-- A Python value that is either an int or a 2-tuple of ints: the two shapes
that flow into `blk.get_transaction(...)`. -/
inductive PyVal where
  | int (n : Nat)
  | pair (a b : Nat)
  deriving DecidableEq, Repr

/-- The helper `bitcoin.core.lx`: hex-decode and reverse.  Transaction ids are modelled
as their display-order byte lists, so only the byte reversal remains. -/
def lx (displayBytes : List Nat) : List Nat :=
  displayBytes.reverse

/-- Modelled from the spec: `Block.get_transaction` (`block.py` is not among
the sources) decodes the single transaction starting at the given intra-block
byte offset; the returned transaction is abstracted as the byte span it is
decoded from.  In Python the offset indexes into the block's raw bytes, so a
non-integer argument - such as the `(value, length)` tuple returned by
`decode_varint` - raises a `TypeError` instead of selecting an offset. -/
def blockGetTransaction (blockRaw : List Nat) : PyVal → Except PyErr (List Nat)
  | .int n => .ok (blockRaw.drop n)
  | .pair _ _ => .error .typeError

/-- The method `Blockchain.get_transaction(txid)` (lines 142-154): look up
`b't' + lx(txid)` in the transaction index, decode `(fileNo, offset)`, then
`(blockOffs, size)`, advance by `size` (the byte count of the second varint),
bind the *whole pair* returned by the third `decode_varint` call to `txOffs`
(line 149 does not unpack it), fetch the block and call
`blk.get_transaction(txOffs)`.  A missing record makes line 146 call
`decode_varint(None)`, where `BytesIO(None)` raises a `TypeError`. -/
def get_transaction (txIndexDb : List Nat → Option (List Nat))
    (files : Nat → List Nat) (txid : List Nat) : Except PyErr (List Nat) :=
  match txIndexDb (0x74 :: lx txid) with
  | none => .error .typeError
  | some txInfo =>
    match decode_varint txInfo with
    | .error e => .error e
    | .ok (fileNo, offset) =>
      match decode_varint (txInfo.drop offset) with
      | .error e => .error e
      | .ok (blockOffs, size) =>
        match decode_varint (txInfo.drop (offset + size)) with
        | .error e => .error e
        | .ok txOffs =>
          let blk := get_block (files fileNo) blockOffs
          blockGetTransaction blk (PyVal.pair txOffs.1 txOffs.2)

/-- Holds (as `true`) exactly on `Except.ok` results. -/
def exceptIsOk {ε α : Type} : Except ε α → Bool
  | .ok _ => true
  | .error _ => false

/- ----------------------------------------------------------------------
`Scanner` (scanner.py lines 14-64)
---------------------------------------------------------------------- -/

/-- The mutable state of a `Scanner`: the wrapped façade, the *remaining*
items of the ordered-block generator created once at construction
(`self.blocks = self.blockchain.get_ordered_blocks()`), and the optional
block selection set. -/
structure ScannerState where
  chain : BlockchainState
  blocks : List Block
  selected_blocks : Option (List Int)

/-- A freshly constructed scanner over façade state `c` (spec contract: the
façade is built from one base directory; the construction-time ordered-block
generator has yielded nothing yet and no selection is present). -/
def mkScanner (c : BlockchainState) : ScannerState :=
  ⟨c, get_ordered_blocks c 0 none, none⟩

/-- The generator `Scanner.filter_blocks(flt)` (lines 41-50), run to completion: resets the
selection, consumes all remaining items of the construction-time generator
(leaving it exhausted), remembers the heights of the matching blocks and
yields those blocks.  The `logging.info` progress observation has no effect
on the state and is dropped. -/
def filter_blocks (s : ScannerState) (flt : Block → Bool) :
    ScannerState × List Block :=
  let matched := s.blocks.filter flt
  ({ s with blocks := [],
            selected_blocks := some (matched.map (fun b => b.height)) }, matched)

/-- Sequential `Except`-propagating map: the replay loop of
`iterate_blocks`, which fetches each remembered height in order and stops at
the first raised exception. -/
def mapMexcept (g : Int → Except PyErr Block) : List Int → Except PyErr (List Block)
  | [] => .ok []
  | h :: rest =>
    match g h with
    | .error e => .error e
    | .ok b =>
      match mapMexcept g rest with
      | .error e => .error e
      | .ok bs => .ok (b :: bs)

/-- The generator `Scanner.iterate_blocks(flt)` (lines 52-61), run to completion: with no
selection present it runs `filter_blocks`; with a selection present it
re-fetches every remembered height through
`self.blockchain.get_block_by_height` and never consults `flt`. -/
def iterate_blocks (s : ScannerState) (flt : Block → Bool) :
    Except PyErr (ScannerState × List Block) :=
  match s.selected_blocks with
  | none => .ok (filter_blocks s flt)
  | some hs => (mapMexcept (fun h => get_block_by_height s.chain h) hs).map (fun blks => (s, blks))

/-- The method `Scanner.clear_block_filter()` (lines 63-64). -/
def clear_block_filter (s : ScannerState) : ScannerState :=
  { s with selected_blocks := none }

/- ----------------------------------------------------------------------
Concrete states used to instantiate the theorems
---------------------------------------------------------------------- -/

/-- A disk on which every location holds the same block (hash 0, prev 0). -/
def diskZero : Int → Int → BlockData := fun _ _ => ⟨0, 0⟩

/-- A transaction-index store holding one record: the id `0xaa` maps to the
four varint bytes `[5, 10, 3, 7]` (file 5, block offset 10, declared size 3,
intra-block offset 7). -/
def txIndexDbEx : List Nat → Option (List Nat) := fun k =>
  if k = [0x74, 0xaa] then some [5, 10, 3, 7] else none

/-- A block-file directory whose every file is 64 zero bytes. -/
def filesEx : Nat → List Nat := fun _ => List.replicate 64 0

/-- A façade state whose index holds a materialized entry at height 0
followed by a sentinel entry at height 1. -/
def cSentinel : BlockchainState :=
  ⟨[⟨0, 0, 0, 0⟩, ⟨1, 1, -1, -1⟩], diskZero⟩

/-- A façade state whose index starts with a sentinel entry. -/
def cFirstSentinel : BlockchainState :=
  ⟨[⟨5, 0, -1, -1⟩, ⟨6, 1, 2, 3⟩], diskZero⟩

/-- A height-dense façade state: the entry at position `i` has height `i`,
and every entry is materialized.  The disk distinguishes locations. -/
def cDense : BlockchainState :=
  ⟨[⟨10, 0, 0, 0⟩, ⟨11, 1, 0, 8⟩], fun _ p => ⟨p.toNat, 0⟩⟩

/-- A façade state that is *not* height-dense: its only entry (position 0)
has height 1. -/
def cSparse : BlockchainState :=
  ⟨[⟨7, 1, 0, 0⟩], diskZero⟩

/-- A façade state with a single materialized entry at height 0. -/
def cOne : BlockchainState :=
  ⟨[⟨3, 0, 0, 0⟩], fun _ _ => ⟨1, 0⟩⟩

/-- A materialized index entry (hash 1) at height 0. -/
def aEx : DBBlockIndex := ⟨1, 0, 0, 0⟩

/-- A duplicate-height entry (hash 2, also height 0) lacking an on-disk
location. -/
def bEx : DBBlockIndex := ⟨2, 0, -1, -1⟩

/- ----------------------------------------------------------------------
Helper lemmas: varint encoding and bit lengths
---------------------------------------------------------------------- -/

theorem encodeVarintGo_congr :
    ∀ (f1 : Nat) {f2 n : Nat}, n < f1 → n < f2 →
      encodeVarintGo f1 n = encodeVarintGo f2 n := by
  intro f1
  induction f1 with
  | zero => intro f2 n h1 _; omega
  | succ g ih =>
    intro f2 n h1 h2
    cases f2 with
    | zero => omega
    | succ g2 =>
      simp only [encodeVarintGo]
      by_cases h : n < 128
      · simp [h]
      · have hd : n / 128 < n := Nat.div_lt_self (by omega) (by omega)
        simp only [h, if_false]
        exact congrArg _ (ih (by omega) (by omega))

theorem encodeVarintGo_succ (fuel n : Nat) :
    encodeVarintGo (fuel + 1) n =
      if n < 128 then [n] else (n % 128 + 128) :: encodeVarintGo fuel (n / 128) := rfl

theorem encodeVarint_lt {n : Nat} (h : n < 128) : encodeVarint n = [n] := by
  simp [encodeVarint, encodeVarintGo, h]

theorem encodeVarint_ge {n : Nat} (h : 128 ≤ n) :
    encodeVarint n = (n % 128 + 128) :: encodeVarint (n / 128) := by
  have hd : n / 128 < n := Nat.div_lt_self (by omega) (by omega)
  rw [encodeVarint, encodeVarintGo_succ, if_neg (show ¬ n < 128 by omega)]
  exact congrArg _ (encodeVarintGo_congr n (by omega) (by omega))

theorem bitsGo_congr :
    ∀ (f1 : Nat) {f2 n : Nat}, n < f1 → n < f2 → bitsGo f1 n = bitsGo f2 n := by
  intro f1
  induction f1 with
  | zero => intro f2 n h1 _; omega
  | succ g ih =>
    intro f2 n h1 h2
    cases f2 with
    | zero => omega
    | succ g2 =>
      simp only [bitsGo]
      by_cases h : n = 0
      · simp [h]
      · have hd : n / 2 < n := Nat.div_lt_self (by omega) (by omega)
        simp only [h, if_false]
        exact congrArg (· + 1) (ih (by omega) (by omega))

theorem bitsGo_succ (fuel n : Nat) :
    bitsGo (fuel + 1) n = if n = 0 then 0 else bitsGo fuel (n / 2) + 1 := rfl

theorem bits_pos {n : Nat} (h : 0 < n) : bits n = bits (n / 2) + 1 := by
  have hd : n / 2 < n := Nat.div_lt_self (by omega) (by omega)
  rw [bits, bitsGo_succ, if_neg (show ¬ n = 0 by omega)]
  exact congrArg (· + 1) (bitsGo_congr n (by omega) (by omega))

theorem bits_ge_one {n : Nat} (h : 0 < n) : 1 ≤ bits n := by
  rw [bits_pos h]; omega

theorem bits_div_128 {n : Nat} (h : 128 ≤ n) : bits n = bits (n / 128) + 7 := by
  have e1 : bits n = bits (n / 2) + 1 := bits_pos (by omega)
  have e2 : bits (n / 2) = bits (n / 2 / 2) + 1 := bits_pos (by omega)
  have e3 : bits (n / 2 / 2) = bits (n / 2 / 2 / 2) + 1 := bits_pos (by omega)
  have e4 : bits (n / 2 / 2 / 2) = bits (n / 2 / 2 / 2 / 2) + 1 := bits_pos (by omega)
  have e5 : bits (n / 2 / 2 / 2 / 2) = bits (n / 2 / 2 / 2 / 2 / 2) + 1 := bits_pos (by omega)
  have e6 : bits (n / 2 / 2 / 2 / 2 / 2) = bits (n / 2 / 2 / 2 / 2 / 2 / 2) + 1 :=
    bits_pos (by omega)
  have e7 : bits (n / 2 / 2 / 2 / 2 / 2 / 2) = bits (n / 2 / 2 / 2 / 2 / 2 / 2 / 2) + 1 :=
    bits_pos (by omega)
  have e8 : n / 2 / 2 / 2 / 2 / 2 / 2 / 2 = n / 128 := by omega
  rw [e1, e2, e3, e4, e5, e6, e7, e8]

theorem bits_le_seven : ∀ n < 128, bits n ≤ 7 := by decide

theorem encodeVarint_length :
    ∀ n : Nat, (encodeVarint n).length = max 1 ((bits n + 6) / 7) := by
  intro n
  induction n using Nat.strong_induction_on with
  | _ n ih =>
    by_cases h : n < 128
    · rw [encodeVarint_lt h]
      have h7 : bits n ≤ 7 := bits_le_seven n h
      simp only [List.length_singleton]
      omega
    · rw [encodeVarint_ge (by omega)]
      have hd : n / 128 < n := Nat.div_lt_self (by omega) (by omega)
      have hlen := ih (n / 128) hd
      have hb : bits n = bits (n / 128) + 7 := bits_div_128 (by omega)
      have hb1 : 1 ≤ bits (n / 128) := bits_ge_one (by omega)
      simp only [List.length_cons, hlen, hb]
      omega

/-- Disjoint bitwise or is addition: a value below `2 ^ s` and a multiple of
`2 ^ s` occupy disjoint bit ranges. -/
theorem lor_two_pow_mul :
    ∀ (s a b : Nat), a < 2 ^ s → a ||| b * 2 ^ s = a + b * 2 ^ s := by
  intro s
  induction s with
  | zero =>
    intro a b ha
    have : a = 0 := by omega
    subst this
    simp [Nat.zero_or]
  | succ s ih =>
    intro a b ha
    have hbit : Nat.bit (a.testBit 0) (a >>> 1) = a := Nat.bit_testBit_zero_shiftRight_one a
    have hb2 : b * 2 ^ (s + 1) = Nat.bit false (b * 2 ^ s) := by
      rw [Nat.bit_val, Nat.pow_succ]
      simp
      ring
    have hhalf : a >>> 1 = a / 2 := Nat.shiftRight_one a
    have hlt : a / 2 < 2 ^ s := by
      have hp : 2 ^ (s + 1) = 2 * 2 ^ s := by ring
      omega
    calc a ||| b * 2 ^ (s + 1)
        = Nat.bit (a.testBit 0) (a >>> 1) ||| Nat.bit false (b * 2 ^ s) := by
          rw [hbit, ← hb2]
      _ = Nat.bit (a.testBit 0 || false) ((a >>> 1) ||| b * 2 ^ s) := by
          rw [Nat.lor_bit]
      _ = Nat.bit (a.testBit 0) ((a / 2) + b * 2 ^ s) := by
          rw [Bool.or_false, hhalf, ih (a / 2) b hlt]
      _ = a + b * 2 ^ (s + 1) := by
          rw [Nat.bit_val]
          have hv : 2 * (a / 2) + (a.testBit 0).toNat = a := by
            have hb := Nat.bit_testBit_zero_shiftRight_one a
            rw [Nat.bit_val, hhalf] at hb
            omega
          have hp : b * 2 ^ (s + 1) = 2 * (b * 2 ^ s) := by
            rw [Nat.pow_succ]; ring
          omega

theorem byte_land_127_lo : ∀ n < 128, n &&& 127 = n := by decide

theorem byte_land_128_lo : ∀ n < 128, n &&& 128 = 0 := by decide

theorem byte_land_127_hi : ∀ m < 128, (m + 128) &&& 127 = m := by decide

theorem byte_land_128_hi : ∀ m < 128, (m + 128) &&& 128 = 128 := by decide

/-- Running the decoder loop on an encoded value, from an arbitrary
accumulator state. -/
theorem decodeVarintGo_encode :
    ∀ (n len shift result : Nat),
      decodeVarintGo (encodeVarint n) len shift result =
        .ok (result ||| (n <<< shift), len + (encodeVarint n).length) := by
  intro n
  induction n using Nat.strong_induction_on with
  | _ n ih =>
    intro len shift result
    by_cases h : n < 128
    · rw [encodeVarint_lt h]
      simp [decodeVarintGo, byte_land_127_lo n h, byte_land_128_lo n h]
    · rw [encodeVarint_ge (by omega)]
      have hmod : n % 128 < 128 := Nat.mod_lt _ (by omega)
      have hd : n / 128 < n := Nat.div_lt_self (by omega) (by omega)
      simp only [decodeVarintGo, byte_land_127_hi _ hmod, byte_land_128_hi _ hmod,
        List.length_cons]
      rw [if_neg (by omega)]
      rw [ih (n / 128) hd (len + 1) (shift + 7) (result ||| ((n % 128) <<< shift))]
      have hor : (result ||| ((n % 128) <<< shift)) ||| ((n / 128) <<< (shift + 7)) =
          result ||| (n <<< shift) := by
        rw [Nat.lor_assoc]
        have h1 : (n % 128) <<< shift = n % 128 * 2 ^ shift := Nat.shiftLeft_eq _ _
        have h2 : (n / 128) <<< (shift + 7) = n / 128 * 2 ^ (shift + 7) := Nat.shiftLeft_eq _ _
        have h3 : n <<< shift = n * 2 ^ shift := Nat.shiftLeft_eq _ _
        have hlt : n % 128 * 2 ^ shift < 2 ^ (shift + 7) := by
          have h27 : 2 ^ (shift + 7) = 2 ^ shift * 128 := by rw [Nat.pow_add]
          calc n % 128 * 2 ^ shift < 128 * 2 ^ shift :=
                (Nat.mul_lt_mul_right (Nat.two_pow_pos shift)).mpr hmod
            _ = 2 ^ (shift + 7) := by omega
        have hdist : n / 128 * 2 ^ (shift + 7) = n / 128 * 128 * 2 ^ shift := by
          rw [Nat.pow_add]; ring
        have hsum : n % 128 * 2 ^ shift + n / 128 * 128 * 2 ^ shift = n * 2 ^ shift := by
          have hnm : n % 128 + n / 128 * 128 = n := by omega
          calc n % 128 * 2 ^ shift + n / 128 * 128 * 2 ^ shift
              = (n % 128 + n / 128 * 128) * 2 ^ shift := by ring
            _ = n * 2 ^ shift := by rw [hnm]
        rw [h1, h2, h3, lor_two_pow_mul (shift + 7) _ _ hlt, hdist, hsum]
      have hlen : len + 1 + (encodeVarint (n / 128)).length =
          len + ((encodeVarint (n / 128)).length + 1) := by omega
      rw [hor, hlen]

/-- Claim C8: decoding the base-128 varint encoding of any `V` returns
`(V, n)` with `n` the byte count of the encoding, which equals
`ceil(bits(V) / 7)` floored at 1; the decoder is `decode_varint`, which reads
bytes one at a time, ORs each byte's low 7 bits in at a bit offset growing by
7 per byte, and stops at the first byte whose 0x80 bit is clear. -/
theorem varint_roundtrip :
    ∀ V : Nat,
      decode_varint (encodeVarint V) = .ok (V, (encodeVarint V).length) ∧
      (encodeVarint V).length = max 1 ((bits V + 6) / 7) ∧
      1 ≤ (encodeVarint V).length := by
  intro V
  refine ⟨?_, encodeVarint_length V, ?_⟩
  · have hgo := decodeVarintGo_encode V 0 0 0
    simp only [decode_varint, hgo, Nat.shiftLeft_zero, Nat.zero_or, Nat.zero_add]
  · rw [encodeVarint_length V]; omega

/- ----------------------------------------------------------------------
Claim C1: index construction at façade construction time
---------------------------------------------------------------------- -/

/-- Claim C1 (code bug): the claim says every façade construction retains the
in-memory index rebuilt from the block-index store, sorted by height and
orphan-pruned, replacing any cache-loaded sequence.  In the code,
`__init__` calls `_build_block_index` before `self.blockIndexDb` is ever
assigned, so construction always raises `AttributeError` and no index is
retained (and even with the handle present, line 168 calls `db.close()` on an
undefined name, and the pruned list would be built from the cache-loaded
local `blockIndexes`, not from the store scan that line 166 assigns to
`self.blockIndexes`). -/
theorem blockchain_init_always_fails :
    ∀ (cacheConfigured cacheExists : Bool)
      (cacheContent storeEntries : List DBBlockIndex),
      blockchainInit cacheConfigured cacheExists cacheContent storeEntries =
        .error .attributeError := by
  intro _ _ _ _
  rfl

/-- Even when `_build_block_index` is entered with the store handle
attribute present (as the spec's construction order would have it), the
undefined name `db` on line 168 raises `NameError` before the sort, the cache
write, or the pruning can run. -/
theorem buildBlockIndex_nameError :
    ∀ (cacheConfigured cacheExists : Bool)
      (cacheContent storeEntries : List DBBlockIndex),
      buildBlockIndexRun cacheConfigured cacheExists cacheContent true storeEntries =
        .error .nameError := by
  intro _ _ _ _
  rfl

/- ----------------------------------------------------------------------
Claim C3: transaction lookup by id
---------------------------------------------------------------------- -/

/-- Claim C3 (code bug): the claim says `get_transaction` decodes four
varints and returns the transaction decoded at the fourth varint's value.
Line 149 binds the whole `(value, length)` pair of the *third* varint (the
declared-size field) to `txOffs` without unpacking it and passes that tuple
to `blk.get_transaction`, which raises `TypeError`; the fourth varint is
never read, and no call can ever return a transaction. -/
theorem get_transaction_tuple_bug :
    get_transaction txIndexDbEx filesEx [0xaa] = .error .typeError ∧
    ∀ (db : List Nat → Option (List Nat)) (files : Nat → List Nat)
      (txid : List Nat), exceptIsOk (get_transaction db files txid) = false := by
  constructor
  · rfl
  · intro db files txid
    unfold get_transaction
    cases db (0x74 :: lx txid) with
    | none => rfl
    | some txInfo =>
      dsimp only
      cases decode_varint txInfo with
      | error e => rfl
      | ok p1 =>
        obtain ⟨fileNo, off1⟩ := p1
        dsimp only
        cases decode_varint (txInfo.drop off1) with
        | error e => rfl
        | ok p2 =>
          obtain ⟨blockOffs, size⟩ := p2
          dsimp only
          cases decode_varint (txInfo.drop (off1 + size)) with
          | error e => rfl
          | ok p3 => rfl

/- ----------------------------------------------------------------------
Helper lemmas: lists
---------------------------------------------------------------------- -/

theorem drop_append_len {α : Type} (l1 l2 : List α) (n : Nat) (h : n = l1.length) :
    (l1 ++ l2).drop n = l2 := by
  subst h; exact List.drop_left l1 l2

theorem take_append_len {α : Type} (l1 l2 : List α) (n : Nat) (h : n = l1.length) :
    (l1 ++ l2).take n = l1 := by
  subst h; exact List.take_left l1 l2

theorem takeWhile_length_le {α : Type} (p : α → Bool) :
    ∀ l : List α, (l.takeWhile p).length ≤ l.length := by
  intro l
  induction l with
  | nil => simp [List.takeWhile]
  | cons x xs ih =>
    rw [List.takeWhile_cons]
    by_cases hp : p x
    · rw [if_pos hp]; simpa using ih
    · rw [if_neg hp]; simp

theorem takeWhile_get? {α : Type} (p : α → Bool) :
    ∀ (l : List α) (i : Nat), i < (l.takeWhile p).length →
      (l.takeWhile p).get? i = l.get? i := by
  intro l
  induction l with
  | nil => intro i hi; simp [List.takeWhile] at hi
  | cons x xs ih =>
    intro i hi
    rw [List.takeWhile_cons] at hi ⊢
    by_cases hp : p x
    · rw [if_pos hp] at hi ⊢
      cases i with
      | zero => rfl
      | succ j =>
        simp only [List.get?_cons_succ]
        exact ih j (by simpa using hi)
    · rw [if_neg hp] at hi
      simp at hi

theorem takeWhile_get {α : Type} (p : α → Bool) (l : List α) (i : Nat)
    (h1 : i < (l.takeWhile p).length) (h2 : i < l.length) :
    (l.takeWhile p).get ⟨i, h1⟩ = l.get ⟨i, h2⟩ := by
  have hq := takeWhile_get? p l i h1
  rw [List.get?_eq_get h1, List.get?_eq_get h2] at hq
  exact Option.some_injective _ hq

theorem chain'_takeWhile {α : Type} {R : α → α → Prop} (p : α → Bool) :
    ∀ l : List α, List.Chain' R l → List.Chain' R (l.takeWhile p) := by
  intro l
  induction l with
  | nil => intro h; simp [List.takeWhile]
  | cons x xs ih =>
    intro h
    rw [List.takeWhile_cons]
    by_cases hp : p x
    · rw [if_pos hp]
      rw [List.chain'_cons'] at h ⊢
      refine ⟨?_, ih h.2⟩
      intro y hy
      apply h.1
      cases xs with
      | nil => simp [List.takeWhile] at hy
      | cons z zs =>
        rw [List.takeWhile_cons] at hy
        by_cases hz : p z
        · rw [if_pos hz] at hy
          simp at hy
          simp [hy]
        · rw [if_neg hz] at hy
          simp at hy
    · rw [if_neg hp]
      simp

/- ----------------------------------------------------------------------
Claim C9: lookup by height is positional
---------------------------------------------------------------------- -/

theorem pyListGet_natCast {α : Type} (l : List α) (h : Nat) (hh : h < l.length) :
    pyListGet l (h : Int) = .ok (l.get ⟨h, hh⟩) := by
  have hneg : ¬ ((h : Int) < 0) := by omega
  simp only [pyListGet]
  split
  · next hc => exact absurd hc hneg
  · next hc =>
    split
    · next hc2 =>
      exact congrArg _ (congrArg _ (Fin.ext (show ((h : Int)).toNat = h by omega)))
    · next hc2 =>
      exact absurd ⟨by omega, by omega⟩ hc2

/-- Claim C9: the height passed to `get_block_by_height` is used as a
position into the height-sorted index (never matched against an entry's own
height field), the lookup raises the invalid-state error exactly when the
positionally selected entry carries a `-1` file or data-offset sentinel, and
otherwise returns the block decoded from that entry's on-disk location. -/
theorem height_lookup_positional (c : BlockchainState) (h : Nat)
    (hh : h < c.blockIndexes.length) :
    (get_block_by_height c (h : Int) = .error .valueError ↔
      ((c.blockIndexes.get ⟨h, hh⟩).file = -1 ∨
        (c.blockIndexes.get ⟨h, hh⟩).data_pos = -1)) ∧
    (¬ ((c.blockIndexes.get ⟨h, hh⟩).file = -1 ∨
        (c.blockIndexes.get ⟨h, hh⟩).data_pos = -1) →
      get_block_by_height c (h : Int) =
        .ok (mkOrderedBlock c.disk (c.blockIndexes.get ⟨h, hh⟩))) := by
  have hrun : get_block_by_height c (h : Int) =
      if (c.blockIndexes.get ⟨h, hh⟩).file = -1 ∨
          (c.blockIndexes.get ⟨h, hh⟩).data_pos = -1 then .error .valueError
      else .ok (mkOrderedBlock c.disk (c.blockIndexes.get ⟨h, hh⟩)) := by
    unfold get_block_by_height
    rw [pyListGet_natCast c.blockIndexes h hh]
  by_cases hs : (c.blockIndexes.get ⟨h, hh⟩).file = -1 ∨
      (c.blockIndexes.get ⟨h, hh⟩).data_pos = -1
  · rw [hrun, if_pos hs]
    exact ⟨⟨fun _ => hs, fun _ => rfl⟩, fun hc => absurd hs hc⟩
  · rw [hrun, if_neg hs]
    refine ⟨⟨fun heq => ?_, fun hs' => absurd hs' hs⟩, fun _ => rfl⟩
    simp at heq

/-- Witness for C9 at a concrete state: position 0 of `cFirstSentinel` holds
a sentinel entry, so the lookup raises the invalid-state error; position 1 is
materialized and returns its decoded block. -/
theorem height_lookup_positional_witness :
    get_block_by_height cFirstSentinel 0 = .error .valueError ∧
    get_block_by_height cFirstSentinel 1 = .ok ⟨diskZero 2 3, 1⟩ := by
  constructor
  · exact (height_lookup_positional cFirstSentinel 0 (by decide)).1.mpr (by decide)
  · exact (height_lookup_positional cFirstSentinel 1 (by decide)).2 (by decide)

/- ----------------------------------------------------------------------
Claim C10: oversize declared length at the end of a scan
---------------------------------------------------------------------- -/

/-- Claim C10: when the 4-byte little-endian length decoded after a magic
marker exceeds the bytes remaining in the file, the scan neither raises nor
reads out of bounds (Python slices clamp): it yields the remaining bytes - a
span shorter than the declared length, possibly empty - as the final record,
and the next loop test terminates the scan. -/
theorem oversize_length_yields_tail (data : List Nat) (offset fuel : Nat)
    (hmagic : (data.drop offset).take 4 = BITCOIN_CONSTANT)
    (hlenfield : offset + 8 ≤ data.length)
    (hoversize : data.length - (offset + 8) < unle32 ((data.drop (offset + 4)).take 4))
    (hfuel : 2 ≤ fuel) :
    getBlocksGo data fuel offset = [data.drop (offset + 8)] := by
  obtain ⟨f, rfl⟩ : ∃ f, fuel = f + 2 := ⟨fuel - 2, by omega⟩
  simp only [getBlocksGo]
  rw [if_pos (show (offset : Int) < (data.length : Int) - 4 by omega)]
  rw [if_pos hmagic]
  have htail : (data.drop (offset + 8)).take (unle32 ((data.drop (offset + 4)).take 4)) =
      data.drop (offset + 8) := by
    apply List.take_of_length_le
    rw [List.length_drop]
    omega
  rw [htail]
  rw [if_neg (show ¬ ((offset + 8 + unle32 ((data.drop (offset + 4)).take 4) : Nat) : Int) <
      (data.length : Int) - 4 by push_cast; omega)]

/-- Witness for C10: a file holding one record whose declared length 100
exceeds the 3 bytes that follow; the scan yields those 3 bytes and stops. -/
theorem oversize_length_yields_tail_witness :
    get_blocks [0xf9, 0xbe, 0xb4, 0xd9, 100, 0, 0, 0, 1, 2, 3] = [[1, 2, 3]] :=
  oversize_length_yields_tail [0xf9, 0xbe, 0xb4, 0xd9, 100, 0, 0, 0, 1, 2, 3] 0 12
    (by decide) (by decide) (by decide) (by decide)

/- ----------------------------------------------------------------------
Claim C6: linear scan round-trip on well-formed files
---------------------------------------------------------------------- -/

theorem unle32_le32 {n : Nat} (h : n < 4294967296) : unle32 (le32 n) = n := by
  simp only [le32, unle32, List.foldr]
  omega

theorem encodeFile_cons (p : List Nat) (ps : List (List Nat)) :
    encodeFile (p :: ps) = encodeRecord p ++ encodeFile ps := by
  simp [encodeFile]

theorem encodeRecord_length (p : List Nat) : (encodeRecord p).length = 8 + p.length := by
  simp [encodeRecord, le32, BITCOIN_CONSTANT]
  omega

theorem length_le_encodeFile_length :
    ∀ ps : List (List Nat), ps.length ≤ (encodeFile ps).length := by
  intro ps
  induction ps with
  | nil => simp [encodeFile]
  | cons p rest ih =>
    rw [encodeFile_cons, List.length_append, encodeRecord_length]
    simp only [List.length_cons]
    omega

/-- Scanning a well-formed file from any record boundary yields exactly the
records that follow, provided one unit of fuel per record plus one for the
final loop test. -/
theorem getBlocksGo_encodeFile :
    ∀ (ps : List (List Nat)) (pre : List Nat) (fuel : Nat),
      (∀ p ∈ ps, p.length < 4294967296) → ps.length < fuel →
      getBlocksGo (pre ++ encodeFile ps) fuel pre.length = ps := by
  intro ps
  induction ps with
  | nil =>
    intro pre fuel _ hfuel
    obtain ⟨f, rfl⟩ : ∃ f, fuel = f + 1 := ⟨fuel - 1, by omega⟩
    have he : encodeFile ([] : List (List Nat)) = [] := by simp [encodeFile]
    rw [he, List.append_nil]
    simp only [getBlocksGo]
    rw [if_neg (show ¬ ((pre.length : Int) < (pre.length : Int) - 4 : Prop) by omega)]
  | cons p rest ih =>
    intro pre fuel hlen hfuel
    obtain ⟨f, rfl⟩ : ∃ f, fuel = f + 1 := ⟨fuel - 1, by omega⟩
    have hp32 : p.length < 4294967296 := hlen p (by simp)
    rw [encodeFile_cons]
    have hassoc : pre ++ (encodeRecord p ++ encodeFile rest) =
        pre ++ encodeRecord p ++ encodeFile rest := by rw [List.append_assoc]
    have hdata_len : (pre ++ (encodeRecord p ++ encodeFile rest)).length =
        pre.length + (8 + p.length) + (encodeFile rest).length := by
      simp [encodeRecord_length]
      omega
    simp only [getBlocksGo]
    rw [if_pos (show ((pre.length : Nat) : Int) <
        ((pre ++ (encodeRecord p ++ encodeFile rest)).length : Int) - 4 by
      rw [hdata_len]; push_cast; omega)]
    have hdropPre : (pre ++ (encodeRecord p ++ encodeFile rest)).drop pre.length =
        encodeRecord p ++ encodeFile rest := drop_append_len _ _ _ rfl
    have hmagic : ((pre ++ (encodeRecord p ++ encodeFile rest)).drop pre.length).take 4 =
        BITCOIN_CONSTANT := by
      rw [hdropPre]
      rw [show encodeRecord p ++ encodeFile rest =
        BITCOIN_CONSTANT ++ (le32 p.length ++ p ++ encodeFile rest) by
          simp [encodeRecord]]
      exact take_append_len _ _ _ rfl
    rw [if_pos hmagic]
    have hdrop4 : (pre ++ (encodeRecord p ++ encodeFile rest)).drop (pre.length + 4) =
        le32 p.length ++ (p ++ encodeFile rest) := by
      rw [show pre ++ (encodeRecord p ++ encodeFile rest) =
        (pre ++ BITCOIN_CONSTANT) ++ (le32 p.length ++ (p ++ encodeFile rest)) by
          simp [encodeRecord]]
      exact drop_append_len _ _ _ (by simp [BITCOIN_CONSTANT])
    have hsize : unle32 (((pre ++ (encodeRecord p ++ encodeFile rest)).drop
        (pre.length + 4)).take 4) = p.length := by
      rw [hdrop4, take_append_len _ _ _ (by simp [le32]), unle32_le32 hp32]
    rw [hsize]
    have hdrop8 : (pre ++ (encodeRecord p ++ encodeFile rest)).drop (pre.length + 8) =
        p ++ encodeFile rest := by
      rw [show pre ++ (encodeRecord p ++ encodeFile rest) =
        (pre ++ BITCOIN_CONSTANT ++ le32 p.length) ++ (p ++ encodeFile rest) by
          simp [encodeRecord]]
      exact drop_append_len _ _ _ (by simp [BITCOIN_CONSTANT, le32])
    have hyield : ((pre ++ (encodeRecord p ++ encodeFile rest)).drop
        (pre.length + 8)).take p.length = p := by
      rw [hdrop8]
      exact take_append_len _ _ _ rfl
    rw [hyield]
    have hrec : getBlocksGo (pre ++ (encodeRecord p ++ encodeFile rest)) f
        (pre.length + 8 + p.length) = rest := by
      have hpre' : pre.length + 8 + p.length = (pre ++ encodeRecord p).length := by
        simp [encodeRecord_length]
        omega
      rw [hassoc, hpre']
      exact ih (pre ++ encodeRecord p) f (fun q hq => hlen q (by simp [hq]))
        (by simpa using hfuel)
    rw [hrec]

/-- Claim C6: scanning a file of `N` well-formed records (magic marker plus
correct little-endian length before each payload) yields exactly the `N`
payloads, byte-identical and in file order; at a non-magic position the scan
advances by a single byte; and once fewer than 4 bytes remain the scan
stops. -/
theorem linear_scan_roundtrip :
    (∀ ps : List (List Nat), (∀ p ∈ ps, p.length < 4294967296) →
      get_blocks (encodeFile ps) = ps) ∧
    (∀ (data : List Nat) (offset fuel : Nat),
      (offset : Int) < (data.length : Int) - 4 →
      (data.drop offset).take 4 ≠ BITCOIN_CONSTANT →
      getBlocksGo data (fuel + 1) offset = getBlocksGo data fuel (offset + 1)) ∧
    (∀ (data : List Nat) (offset fuel : Nat), data.length < offset + 4 →
      getBlocksGo data fuel offset = []) := by
  refine ⟨?_, ?_, ?_⟩
  · intro ps hps
    have hmain := getBlocksGo_encodeFile ps [] ((encodeFile ps).length + 1) hps
      (by have := length_le_encodeFile_length ps; omega)
    simpa [get_blocks] using hmain
  · intro data offset fuel hcond hnotmagic
    simp only [getBlocksGo]
    rw [if_pos hcond, if_neg hnotmagic]
  · intro data offset fuel hshort
    cases fuel with
    | zero => rfl
    | succ f =>
      simp only [getBlocksGo]
      rw [if_neg (show ¬ ((offset : Int) < (data.length : Int) - 4) by omega)]

/-- Witness for C6: a two-record file round-trips, a non-magic head advances
by one byte, and a 3-byte file yields nothing. -/
theorem linear_scan_roundtrip_witness :
    get_blocks (encodeFile [[1, 2, 3], [4, 5]]) = [[1, 2, 3], [4, 5]] ∧
    getBlocksGo [0, 0, 0, 0, 0, 0, 0, 0, 0] 9 0 = getBlocksGo [0, 0, 0, 0, 0, 0, 0, 0, 0] 8 1 ∧
    getBlocksGo [1, 2, 3] 4 0 = [] := by
  refine ⟨linear_scan_roundtrip.1 [[1, 2, 3], [4, 5]] (by decide), ?_, ?_⟩
  · exact linear_scan_roundtrip.2.1 [0, 0, 0, 0, 0, 0, 0, 0, 0] 0 8 (by decide) (by decide)
  · exact linear_scan_roundtrip.2.2 [1, 2, 3] 0 4 (by decide)

/- ----------------------------------------------------------------------
Claim C5: ordered iteration bounds and reversal
---------------------------------------------------------------------- -/

theorem chain'_pair_of {α : Type} {R : α → α → Prop} {a b : α} (h : R a b) :
    List.Chain' R [a, b] :=
  List.Chain.cons h List.Chain.nil

theorem yieldUntilSentinel_eq (disk : Int → Int → BlockData) :
    ∀ l : List DBBlockIndex,
      yieldUntilSentinel disk l = (l.takeWhile materialized).map (mkOrderedBlock disk) := by
  intro l
  induction l with
  | nil => rfl
  | cons blk rest ih =>
    simp only [yieldUntilSentinel, List.takeWhile_cons]
    by_cases h : blk.file = -1 ∨ blk.data_pos = -1
    · have hm : materialized blk = false := by simp [materialized, h]
      rw [if_pos h, hm]
      rfl
    · have hm : materialized blk = true := by simp [materialized, h]
      rw [if_neg h, hm]
      simp [ih]

/-- Claim C5 counterexample: over the index of `cSentinel` (length 2, second
entry lacking an on-disk location), a request with `start = 0` and omitted
end does *not* yield the whole slice `[0, 2)`: iteration stops at the
sentinel entry, so only one block is yielded. -/
theorem ordered_blocks_slice_counterexample :
    get_ordered_blocks cSentinel 0 none ≠
      (pySlice cSentinel.blockIndexes 0 2).map (mkOrderedBlock cSentinel.disk) := by
  decide

/-- Claim C5 (amended): an omitted end bound defaults to the index length;
for `start ≤ end` the scan yields the slice `[start, end)` of the
height-sorted index - truncated at the first entry lacking an on-disk
location - in ascending height order; for `end < start` it instead yields
the slice `[len - start, len - end)` of the reversed index (the window
counted from the newest block backward), likewise truncated, in descending
height order. -/
theorem ordered_blocks_spec (c : BlockchainState)
    (hsorted : List.Chain' (fun x y : DBBlockIndex => x.height ≤ y.height) c.blockIndexes) :
    (∀ start : Int, get_ordered_blocks c start none =
      get_ordered_blocks c start (some (c.blockIndexes.length : Int))) ∧
    (∀ start endv : Int, start ≤ endv →
      get_ordered_blocks c start (some endv) =
        ((pySlice c.blockIndexes start endv).takeWhile materialized).map
          (mkOrderedBlock c.disk) ∧
      List.Chain' (fun x y : Block => x.height ≤ y.height)
        (get_ordered_blocks c start (some endv))) ∧
    (∀ start endv : Int, endv < start →
      get_ordered_blocks c start (some endv) =
        ((pySlice c.blockIndexes.reverse ((c.blockIndexes.length : Int) - start)
            ((c.blockIndexes.length : Int) - endv)).takeWhile materialized).map
          (mkOrderedBlock c.disk) ∧
      List.Chain' (fun x y : Block => y.height ≤ x.height)
        (get_ordered_blocks c start (some endv))) := by
  refine ⟨fun start => rfl, ?_, ?_⟩
  · intro start endv hle
    have hrun : get_ordered_blocks c start (some endv) =
        yieldUntilSentinel c.disk (pySlice c.blockIndexes start endv) := by
      simp only [get_ordered_blocks, Option.getD_some]
      rw [if_neg (show ¬ endv < start by omega)]
    have heq : get_ordered_blocks c start (some endv) =
        ((pySlice c.blockIndexes start endv).takeWhile materialized).map
          (mkOrderedBlock c.disk) := by
      rw [hrun, yieldUntilSentinel_eq]
    refine ⟨heq, ?_⟩
    rw [heq]
    apply List.chain'_map_of_chain' (mkOrderedBlock c.disk)
      (fun a b hab => by simpa [mkOrderedBlock] using hab)
    exact chain'_takeWhile materialized _ (((hsorted.drop _).take _))
  · intro start endv hlt
    have hrun : get_ordered_blocks c start (some endv) =
        yieldUntilSentinel c.disk
          (pySlice c.blockIndexes.reverse ((c.blockIndexes.length : Int) - start)
            ((c.blockIndexes.length : Int) - endv)) := by
      simp only [get_ordered_blocks, Option.getD_some]
      rw [if_pos hlt]
    have heq : get_ordered_blocks c start (some endv) =
        ((pySlice c.blockIndexes.reverse ((c.blockIndexes.length : Int) - start)
            ((c.blockIndexes.length : Int) - endv)).takeWhile materialized).map
          (mkOrderedBlock c.disk) := by
      rw [hrun, yieldUntilSentinel_eq]
    refine ⟨heq, ?_⟩
    rw [heq]
    apply List.chain'_map_of_chain' (mkOrderedBlock c.disk)
      (fun a b hab => by simpa [mkOrderedBlock] using hab)
    apply chain'_takeWhile materialized
    apply List.Chain'.take
    apply List.Chain'.drop
    exact List.chain'_reverse.mpr hsorted

/-- Witness for C5 at `cSentinel` (heights `[0, 1]`, second entry a
sentinel): the forward slice `[0, 2)` yields only the first block, and the
reversed request `start = 2, end = 0` stops at the sentinel immediately. -/
theorem ordered_blocks_spec_witness :
    get_ordered_blocks cSentinel 0 none =
      get_ordered_blocks cSentinel 0 (some 2) ∧
    get_ordered_blocks cSentinel 0 (some 2) =
      ((pySlice cSentinel.blockIndexes 0 2).takeWhile materialized).map
        (mkOrderedBlock cSentinel.disk) ∧
    get_ordered_blocks cSentinel 2 (some 0) =
      ((pySlice cSentinel.blockIndexes.reverse 0 2).takeWhile materialized).map
        (mkOrderedBlock cSentinel.disk) := by
  have hs := ordered_blocks_spec cSentinel (chain'_pair_of (by decide))
  exact ⟨hs.1 0, (hs.2.1 0 2 (by decide)).1, (hs.2.2 2 0 (by decide)).1⟩

/- ----------------------------------------------------------------------
Claim C7: clearing the selection and re-filtering
---------------------------------------------------------------------- -/

/-- Claim C7 counterexample: on a wrapper over `cOne` whose filter pass (with
the always-true predicate) ran to completion and yielded one block, clearing
the selection and iterating again re-runs the filter but yields *no* blocks:
the construction-time ordered-block generator was exhausted by the first
pass, so the matching block is not yielded anew. -/
theorem clear_refilter_counterexample :
    (filter_blocks (mkScanner cOne) (fun _ => true)).2 = [⟨⟨1, 0⟩, 0⟩] ∧
    Except.map (fun r => r.2)
      (iterate_blocks (clear_block_filter (filter_blocks (mkScanner cOne) (fun _ => true)).1)
        (fun _ => true)) = .ok ([] : List Block) := by
  exact ⟨by decide, rfl⟩

/-- Claim C7 (amended): clearing the block selection discards the remembered
selection set, and the next iteration with a predicate does re-run the filter
rather than replaying a selection - but the filter runs over the *remaining*
items of the construction-time block generator, which a completed pass left
exhausted, so the re-run evaluates the predicate over no blocks, yields
nothing, and leaves an empty selection. -/
theorem clear_then_refilter (c : BlockchainState) (p q : Block → Bool) :
    (clear_block_filter (filter_blocks (mkScanner c) p).1).selected_blocks = none ∧
    iterate_blocks (clear_block_filter (filter_blocks (mkScanner c) p).1) q =
      .ok (filter_blocks (clear_block_filter (filter_blocks (mkScanner c) p).1) q) ∧
    (filter_blocks (clear_block_filter (filter_blocks (mkScanner c) p).1) q).2 = [] ∧
    (filter_blocks (clear_block_filter (filter_blocks (mkScanner c) p).1) q).1.selected_blocks =
      some [] := by
  exact ⟨rfl, rfl, rfl, rfl⟩

/- ----------------------------------------------------------------------
Claim C4: filter pass followed by replay
---------------------------------------------------------------------- -/

theorem pySlice_full {α : Type} (l : List α) : pySlice l 0 (l.length : Int) = l := by
  have h0 : pySliceIdx l.length 0 = 0 := by simp [pySliceIdx]
  have hL : pySliceIdx l.length (l.length : Int) = l.length := by
    simp only [pySliceIdx]
    rw [if_neg (show ¬ ((l.length : Int) < 0) by omega)]
    simp
  simp only [pySlice, h0, hL]
  simp

theorem mkScanner_blocks (c : BlockchainState) :
    (mkScanner c).blocks =
      (c.blockIndexes.takeWhile materialized).map (mkOrderedBlock c.disk) := by
  show get_ordered_blocks c 0 none = _
  simp only [get_ordered_blocks, Option.getD_none]
  rw [if_neg (show ¬ ((c.blockIndexes.length : Int) < 0) by omega)]
  rw [pySlice_full, yieldUntilSentinel_eq]

/-- Claim C4 counterexample: over `cSparse` (a single materialized entry
whose height is 1, not its position 0), running a full filter pass with the
always-true predicate yields one block of height 1, but iterating again
replays height 1 through the positional height lookup, which raises
`IndexError`: the second pass does not reproduce the first. -/
theorem filter_replay_counterexample :
    (filter_blocks (mkScanner cSparse) (fun _ => true)).2 = [⟨⟨0, 0⟩, 1⟩] ∧
    iterate_blocks (filter_blocks (mkScanner cSparse) (fun _ => true)).1 (fun _ => true) =
      .error .indexError ∧
    iterate_blocks (filter_blocks (mkScanner cSparse) (fun _ => true)).1 (fun _ => true) ≠
      .ok ((filter_blocks (mkScanner cSparse) (fun _ => true)).1,
           (filter_blocks (mkScanner cSparse) (fun _ => true)).2) := by
  refine ⟨by decide, rfl, ?_⟩
  intro hcontra
  have h2 : (Except.error PyErr.indexError : Except PyErr (ScannerState × List Block)) =
      .ok ((filter_blocks (mkScanner cSparse) (fun _ => true)).1,
           (filter_blocks (mkScanner cSparse) (fun _ => true)).2) := hcontra
  exact Except.noConfusion h2

/-- Re-fetching one materialized, height-dense entry through the positional
height lookup returns exactly the block the filter pass produced for it. -/
theorem replay_entry (c : BlockchainState)
    (hdense : ∀ (i : Nat) (hi : i < c.blockIndexes.length),
      (c.blockIndexes.get ⟨i, hi⟩).height = (i : Int)) :
    ∀ e ∈ c.blockIndexes.takeWhile materialized,
      get_block_by_height c e.height = .ok (mkOrderedBlock c.disk e) := by
  intro e he
  obtain ⟨⟨i, hi⟩, hget⟩ := List.mem_iff_get.mp he
  have hil : i < c.blockIndexes.length :=
    lt_of_lt_of_le hi (takeWhile_length_le materialized c.blockIndexes)
  have hei : e = c.blockIndexes.get ⟨i, hil⟩ := by
    rw [← hget]
    exact takeWhile_get materialized c.blockIndexes i hi hil
  have hh : e.height = (i : Int) := by rw [hei]; exact hdense i hil
  have hmat : materialized e = true := List.mem_takeWhile_imp he
  have hnot : ¬ (e.file = -1 ∨ e.data_pos = -1) := by
    simpa [materialized] using hmat
  rw [hh]
  unfold get_block_by_height
  rw [pyListGet_natCast c.blockIndexes i hil, ← hei]
  dsimp only
  rw [if_neg hnot]

theorem mapMexcept_replay (c : BlockchainState) :
    ∀ es : List DBBlockIndex,
      (∀ e ∈ es, get_block_by_height c e.height = .ok (mkOrderedBlock c.disk e)) →
      mapMexcept (fun h => get_block_by_height c h) (es.map (fun e => e.height)) =
        .ok (es.map (mkOrderedBlock c.disk)) := by
  intro es
  induction es with
  | nil => intro _; rfl
  | cons e rest ih =>
    intro hall
    simp only [List.map_cons, mapMexcept]
    rw [hall e (by simp)]
    rw [ih (fun x hx => hall x (by simp [hx]))]

/-- Claim C4 (amended): on a wrapper whose in-memory index is height-dense
(the entry at position `i` has height `i`, as positional height lookup
requires), fully consuming a filter pass with `p` and then iterating again
without clearing yields exactly the same blocks as the first pass, for any
predicate `q` supplied to the second iteration - the predicate is never
consulted, each remembered height being re-fetched through the façade's
positional height lookup instead. -/
theorem filter_then_replay (c : BlockchainState)
    (hdense : ∀ (i : Nat) (hi : i < c.blockIndexes.length),
      (c.blockIndexes.get ⟨i, hi⟩).height = (i : Int))
    (p : Block → Bool) :
    ∀ q : Block → Bool,
      iterate_blocks (filter_blocks (mkScanner c) p).1 q =
        .ok ((filter_blocks (mkScanner c) p).1, (filter_blocks (mkScanner c) p).2) := by
  intro q
  have hiter : iterate_blocks (filter_blocks (mkScanner c) p).1 q =
      (mapMexcept (fun h => get_block_by_height c h)
        (((mkScanner c).blocks.filter p).map (fun b => b.height))).map
        (fun blks => ((filter_blocks (mkScanner c) p).1, blks)) := rfl
  have hout : (filter_blocks (mkScanner c) p).2 = (mkScanner c).blocks.filter p := rfl
  have hmatched : (mkScanner c).blocks.filter p =
      ((c.blockIndexes.takeWhile materialized).filter
        (fun e => p (mkOrderedBlock c.disk e))).map (mkOrderedBlock c.disk) := by
    rw [mkScanner_blocks, List.filter_map]
    rfl
  have hhs : ((mkScanner c).blocks.filter p).map (fun b => b.height) =
      ((c.blockIndexes.takeWhile materialized).filter
        (fun e => p (mkOrderedBlock c.disk e))).map (fun e => e.height) := by
    rw [hmatched, List.map_map]
    rfl
  have hreplay := mapMexcept_replay c
    ((c.blockIndexes.takeWhile materialized).filter
      (fun e => p (mkOrderedBlock c.disk e)))
    (fun e he => replay_entry c hdense e (List.mem_of_mem_filter he))
  rw [hiter, hhs, hreplay, hout, hmatched]
  rfl

/-- Witness for C4 at the height-dense state `cDense`: after a completed
filter pass with the always-true predicate, iterating again with the
always-false predicate still returns exactly the blocks of the first pass -
the second predicate is never consulted. -/
theorem filter_then_replay_witness :
    iterate_blocks (filter_blocks (mkScanner cDense) (fun _ => true)).1 (fun _ => false) =
      .ok ((filter_blocks (mkScanner cDense) (fun _ => true)).1,
           (filter_blocks (mkScanner cDense) (fun _ => true)).2) :=
  filter_then_replay cDense (by decide) (fun _ => true) (fun _ => false)

/- ----------------------------------------------------------------------
Claim C2: orphan pruning of duplicate heights
---------------------------------------------------------------------- -/

theorem collectOrphansGo_mono (disk : Int → Int → BlockData) :
    ∀ (l : List DBBlockIndex) (prev? : Option DBBlockIndex) (orphans : List Nat) (x : Nat),
      x ∈ orphans → x ∈ collectOrphansGo disk l prev? orphans := by
  intro l
  induction l with
  | nil => intro prev? orphans x hx; simpa [collectOrphansGo] using hx
  | cons blk rest ih =>
    intro prev? orphans x hx
    simp only [collectOrphansGo]
    apply ih
    split
    · split
      · exact List.mem_append_left _ hx
      · exact List.mem_append_left _ hx
    · exact hx

theorem collectOrphansGo_pair (disk : Int → Int → BlockData) (a b : DBBlockIndex)
    (post : List DBBlockIndex) (hdup : b.height = a.height) (hpos : -1 < a.height) :
    ∀ (pre : List DBBlockIndex) (prev? : Option DBBlockIndex) (orphans : List Nat),
      (if indexConfirmed disk (b :: post) = some true then a.hash else b.hash) ∈
        collectOrphansGo disk (pre ++ a :: b :: post) prev? orphans := by
  intro pre
  induction pre with
  | nil =>
    intro prev? orphans
    simp only [List.nil_append, collectOrphansGo]
    rw [if_pos ⟨hpos, hdup⟩]
    apply collectOrphansGo_mono
    by_cases hc : indexConfirmed disk (b :: post) = some true
    · rw [if_pos hc, if_pos hc]
      exact List.mem_append_right _ (by simp)
    · rw [if_neg hc, if_neg hc]
      exact List.mem_append_right _ (by simp)
  | cons x pre' ih =>
    intro prev? orphans
    simp only [List.cons_append, collectOrphansGo]
    exact ih (some x) _

theorem pruneOrphans_excludes (disk : Int → Int → BlockData) (l : List DBBlockIndex)
    (x : Nat) (hx : x ∈ collectOrphans disk l) :
    ∀ e ∈ pruneOrphans disk l, e.hash ≠ x := by
  intro e he heq
  simp only [pruneOrphans, List.mem_filter] at he
  have hcont := he.2
  rw [heq] at hcont
  simp only [Bool.not_eq_true'] at hcont
  simp at hcont
  exact hcont hx

/-- Claim C2: in a height-sorted index sequence with an entry `b` whose
height duplicates the immediately preceding entry `a`, pruning decides via
the forward search `indexConfirmed` over the suffix starting at the later
duplicate `b`: if the search confirms (a chain of 6 consecutive blocks
containing `b`'s block hash is found), the earlier duplicate's hash is
collected as the orphan and every entry carrying it is excluded from the
final index; otherwise the later duplicate's hash is collected and excluded.
Whatever the state of the search, an index entry with file number `-1` or
data offset `-1` makes confirmation return `False` immediately. -/
theorem orphan_pruning_decision (disk : Int → Int → BlockData)
    (pre post : List DBBlockIndex) (a b : DBBlockIndex)
    (hsorted : List.Chain' (fun x y : DBBlockIndex => x.height ≤ y.height)
      (pre ++ a :: b :: post))
    (hdup : b.height = a.height) (hpos : -1 < a.height) :
    (indexConfirmed disk (b :: post) = some true →
      a.hash ∈ collectOrphans disk (pre ++ a :: b :: post) ∧
      ∀ e ∈ pruneOrphans disk (pre ++ a :: b :: post), e.hash ≠ a.hash) ∧
    (indexConfirmed disk (b :: post) ≠ some true →
      b.hash ∈ collectOrphans disk (pre ++ a :: b :: post) ∧
      ∀ e ∈ pruneOrphans disk (pre ++ a :: b :: post), e.hash ≠ b.hash) ∧
    (∀ (e : DBBlockIndex) (rest : List DBBlockIndex) (fh : Option Nat)
        (chains : List (List Nat)), e.file = -1 ∨ e.data_pos = -1 →
      indexConfirmedAux disk 6 (e :: rest) fh chains = some false) := by
  have hmem := collectOrphansGo_pair disk a b post hdup hpos pre none []
  refine ⟨fun hc => ?_, fun hc => ?_, fun e rest fh chains hsent => ?_⟩
  · rw [if_pos hc] at hmem
    exact ⟨hmem, pruneOrphans_excludes disk _ a.hash hmem⟩
  · rw [if_neg hc] at hmem
    exact ⟨hmem, pruneOrphans_excludes disk _ b.hash hmem⟩
  · simp only [indexConfirmedAux]
    rw [if_pos hsent]

/-- Witness for C2: over the sorted two-entry index `[aEx, bEx]` (duplicate
height 0), the forward search from `bEx` fails immediately (`bEx` has no
on-disk location), so `bEx.hash` is collected as the orphan and pruned. -/
theorem orphan_pruning_decision_witness :
    bEx.hash ∈ collectOrphans diskZero [aEx, bEx] ∧
    ∀ e ∈ pruneOrphans diskZero [aEx, bEx], e.hash ≠ bEx.hash := by
  have h := orphan_pruning_decision diskZero [] [] aEx bEx
    (chain'_pair_of (by decide)) (by decide) (by decide)
  exact h.2.1 (by decide)

end BlockchainParser
